import Mathlib

/-!
Shallow embedding of the Mandelbrot renderer core (`src/main.rs`):
the escape-time evaluator `escape_time`, the coordinate mapper
`pixel_to_point`, and the rasterizer `render`.  The Rust code computes
with `Complex<f64>`; the embedding models the arithmetic exactly over ℚ
(all concrete inputs appearing in the claims and in the repository's own
tests are dyadic rationals on which the `f64` operations are exact).
Machine integers (`u32`, `usize`, `u8`) are modelled as ℕ with explicit
`% 256` where the `u8` cast occurs; the pixel buffer is a `List ℕ`; the
`assert!` in `render` is modelled by returning `Option`.
-/

namespace Mandelbrot

/-- Two-field complex value type, as `num::Complex<f64>` is used by the code
(modelled over ℚ). -/
structure Complex where
  re : ℚ
  im : ℚ
  deriving DecidableEq

/-- Complex addition, `(a+bi) + (c+di)`. -/
def Complex.add (a b : Complex) : Complex :=
  ⟨a.re + b.re, a.im + b.im⟩

/-- Complex multiplication, `(a+bi)(c+di) = (ac−bd) + (ad+bc)i`. -/
def Complex.mul (a b : Complex) : Complex :=
  ⟨a.re * b.re - a.im * b.im, a.re * b.im + a.im * b.re⟩

/-- Squared magnitude, `num::Complex::norm_sqr`: `re*re + im*im`. -/
def Complex.norm_sqr (z : Complex) : ℚ :=
  z.re * z.re + z.im * z.im

/-- The loop of `escape_time`, with the remaining iteration budget as
explicit fuel: at each step set `z = z*z + c`, return `some i` as soon as
`z.norm_sqr() > 4.0`, and `none` when the budget is exhausted. -/
def escapeGo (c : Complex) : Complex → ℕ → ℕ → Option ℕ
  | _, _, 0 => none
  | z, i, fuel+1 =>
    let z1 := (z.mul z).add c
    if 4 < z1.norm_sqr then some i else escapeGo c z1 (i+1) fuel

/-- `fn escape_time(c: Complex<f64>, limit: u32) -> Option<u32>` from
`src/main.rs`: start from `z = 0 + 0i` and run the loop for at most
`limit` iterations. -/
def escape_time (c : Complex) (limit : ℕ) : Option ℕ :=
  escapeGo c ⟨0, 0⟩ 0 limit

/-- The Mandelbrot orbit of `c`: `mandelIter c n` is the value of `z`
after `n` executions of `z = z*z + c` starting from `z = 0 + 0i`.
Specification-side description of the loop state of `escape_time`. -/
def mandelIter (c : Complex) : ℕ → Complex
  | 0 => ⟨0, 0⟩
  | n+1 => ((mandelIter c n).mul (mandelIter c n)).add c

/-- `fn pixel_to_point` from `src/main.rs`: linear interpolation sending
pixel `(column, row) = (pixel.0, pixel.1)` into the viewport spanned by
`upper_left` and `lower_right`. -/
def pixel_to_point (bounds : ℕ × ℕ) (pixel : ℕ × ℕ)
    (upper_left lower_right : Complex) : Complex :=
  let width : ℚ := lower_right.re - upper_left.re
  let height : ℚ := upper_left.im - lower_right.im
  ⟨upper_left.re + (pixel.1 : ℚ) * width / (bounds.1 : ℚ),
   upper_left.im - (pixel.2 : ℚ) * height / (bounds.2 : ℚ)⟩

/-- The byte `render` stores for pixel `(column, row)`: `0` when
`escape_time(point, 255)` is `None`, else `255 - count as u8`
(the `u8` cast is `% 256`). -/
def pixelByte (bounds : ℕ × ℕ) (upper_left lower_right : Complex)
    (column row : ℕ) : ℕ :=
  match escape_time (pixel_to_point bounds (column, row) upper_left lower_right) 255 with
  | none => 0
  | some count => 255 - count % 256

/-- `fn render` from `src/main.rs`.  The Rust function mutates `pixels`
in place after `assert!(pixels.len() == bounds.0 * bounds.1)`; the
embedding returns `none` when the assertion fires and `some` of the
final buffer otherwise.  Loop order as in the source: `row` outer over
`0 .. bounds.1`, `column` inner over `0 .. bounds.0`, writing index
`row * bounds.0 + column`. -/
def render (pixels : List ℕ) (bounds : ℕ × ℕ)
    (upper_left lower_right : Complex) : Option (List ℕ) :=
  if pixels.length = bounds.1 * bounds.2 then
    some ((List.range bounds.2).foldl
      (fun buf row =>
        (List.range bounds.1).foldl
          (fun buf2 column =>
            buf2.set (row * bounds.1 + column)
              (pixelByte bounds upper_left lower_right column row))
          buf)
      pixels)
  else none

/-! ### Unfolding lemmas for the escape-time loop -/

lemma escapeGo_zero (c z : Complex) (i : ℕ) : escapeGo c z i 0 = none := rfl

lemma escapeGo_succ (c z : Complex) (i fuel : ℕ) :
    escapeGo c z i (fuel+1) =
      if 4 < ((z.mul z).add c).norm_sqr then some i
      else escapeGo c ((z.mul z).add c) (i+1) fuel := rfl

lemma mandelIter_succ_eq (c : Complex) (n : ℕ) :
    ((mandelIter c n).mul (mandelIter c n)).add c = mandelIter c (n+1) := rfl

/-- The loop state of `escapeGo`, started at iteration `k` on the orbit point
`mandelIter c k` with `fuel` iterations left, returns `some j` exactly when
`j` is the first iteration in `[k, k+fuel)` whose next orbit point has
squared magnitude strictly above `4`. -/
lemma escapeGo_some_iff (c : Complex) (fuel : ℕ) :
    ∀ k j : ℕ,
      escapeGo c (mandelIter c k) k fuel = some j ↔
        k ≤ j ∧ j < k + fuel ∧ 4 < (mandelIter c (j+1)).norm_sqr ∧
          ∀ m, k ≤ m → m < j → (mandelIter c (m+1)).norm_sqr ≤ 4 := by
  induction fuel with
  | zero =>
    intro k j
    rw [escapeGo_zero]
    constructor
    · intro h; exact absurd h (by simp)
    · rintro ⟨h1, h2, -⟩; omega
  | succ fuel ih =>
    intro k j
    rw [escapeGo_succ, mandelIter_succ_eq]
    by_cases hesc : 4 < (mandelIter c (k+1)).norm_sqr
    · rw [if_pos hesc]
      constructor
      · intro h
        have hj : k = j := by simpa using h
        subst hj
        exact ⟨le_rfl, by omega, hesc, fun m hm1 hm2 => by omega⟩
      · rintro ⟨hkj, hjf, hj4, hall⟩
        have hjk : j = k := by
          by_contra hne
          have hklt : k < j := lt_of_le_of_ne hkj (Ne.symm hne)
          exact absurd hesc (not_lt.mpr (hall k le_rfl hklt))
        rw [hjk]
    · rw [if_neg hesc, ih (k+1) j]
      constructor
      · rintro ⟨h1, h2, h3, h4⟩
        refine ⟨by omega, by omega, h3, ?_⟩
        intro m hm1 hm2
        rcases Nat.eq_or_lt_of_le hm1 with rfl | hlt
        · exact not_lt.mp hesc
        · exact h4 m hlt hm2
      · rintro ⟨h1, h2, h3, h4⟩
        have hjk : k < j := by
          rcases Nat.eq_or_lt_of_le h1 with rfl | h
          · exact absurd h3 hesc
          · exact h
        exact ⟨hjk, by omega, h3, fun m hm1 hm2 => h4 m (by omega) hm2⟩

/-- Exhausting the fuel without returning means every probed orbit point
stayed within squared magnitude `4`. -/
lemma escapeGo_none_iff (c : Complex) (fuel : ℕ) :
    ∀ k : ℕ,
      escapeGo c (mandelIter c k) k fuel = none ↔
        ∀ m, k ≤ m → m < k + fuel → (mandelIter c (m+1)).norm_sqr ≤ 4 := by
  induction fuel with
  | zero =>
    intro k
    rw [escapeGo_zero]
    constructor
    · intro _ m h1 h2; omega
    · intro _; rfl
  | succ fuel ih =>
    intro k
    rw [escapeGo_succ, mandelIter_succ_eq]
    by_cases hesc : 4 < (mandelIter c (k+1)).norm_sqr
    · rw [if_pos hesc]
      refine iff_of_false (by simp) ?_
      intro h
      exact absurd hesc (not_lt.mpr (h k le_rfl (by omega)))
    · rw [if_neg hesc, ih (k+1)]
      constructor
      · intro h m hm1 hm2
        rcases Nat.eq_or_lt_of_le hm1 with rfl | hlt
        · exact not_lt.mp hesc
        · exact h m hlt (by omega)
      · intro h m hm1 hm2
        exact h m (by omega) (by omega)

lemma mandelIter_zero_eq (c : Complex) : mandelIter c 0 = ⟨0, 0⟩ := rfl

/-- Characterization of `escape_time c limit = some i`. -/
lemma escape_time_some_iff (c : Complex) (limit i : ℕ) :
    escape_time c limit = some i ↔
      i < limit ∧ 4 < (mandelIter c (i+1)).norm_sqr ∧
        ∀ j, j < i → (mandelIter c (j+1)).norm_sqr ≤ 4 := by
  have h := escapeGo_some_iff c limit 0 i
  rw [mandelIter_zero_eq] at h
  rw [escape_time, h]
  constructor
  · rintro ⟨-, h2, h3, h4⟩
    exact ⟨by omega, h3, fun j hj => h4 j (Nat.zero_le j) hj⟩
  · rintro ⟨h1, h2, h3⟩
    exact ⟨Nat.zero_le i, by omega, h2, fun m _ hm => h3 m hm⟩

/-- Characterization of `escape_time c limit = none`. -/
lemma escape_time_none_iff (c : Complex) (limit : ℕ) :
    escape_time c limit = none ↔
      ∀ i, i < limit → (mandelIter c (i+1)).norm_sqr ≤ 4 := by
  have h := escapeGo_none_iff c limit 0
  rw [mandelIter_zero_eq] at h
  rw [escape_time, h]
  constructor
  · intro h i hi; exact h i (Nat.zero_le i) (by omega)
  · intro h m _ hm; exact h m (by omega)

lemma escape_time_some_lt {c : Complex} {limit i : ℕ}
    (h : escape_time c limit = some i) : i < limit :=
  ((escape_time_some_iff c limit i).mp h).1

/-- After one iteration from the origin the loop variable is `c` itself. -/
lemma mandelIter_one (c : Complex) : mandelIter c 1 = c := by
  show ((Complex.mk 0 0).mul (Complex.mk 0 0)).add c = c
  simp [Complex.mul, Complex.add]

/-- A point whose own squared magnitude exceeds `4` escapes at iteration `0`. -/
lemma escape_time_of_four_lt (c : Complex) (limit : ℕ)
    (hfar : 4 < c.norm_sqr) (hlim : 1 ≤ limit) :
    escape_time c limit = some 0 := by
  rw [escape_time_some_iff]
  rw [mandelIter_one]
  exact ⟨by omega, hfar, fun j hj => absurd hj (Nat.not_lt_zero j)⟩

/-- The orbit of the origin is constantly the origin. -/
lemma mandelIter_origin (n : ℕ) : mandelIter ⟨0, 0⟩ n = ⟨0, 0⟩ := by
  induction n with
  | zero => rfl
  | succ n ihn =>
    rw [← mandelIter_succ_eq, ihn]
    simp [Complex.mul, Complex.add]

/-- The origin never escapes, for any limit. -/
lemma escape_time_origin_eq (limit : ℕ) : escape_time ⟨0, 0⟩ limit = none := by
  rw [escape_time_none_iff]
  intro i _
  rw [mandelIter_origin]
  norm_num [Complex.norm_sqr]

/-- Raising the limit preserves an already returned escape iteration. -/
lemma escape_time_mono_of_le {c : Complex} {limit limit2 i : ℕ}
    (h : escape_time c limit = some i) (hle : limit ≤ limit2) :
    escape_time c limit2 = some i := by
  rw [escape_time_some_iff] at h ⊢
  exact ⟨by omega, h.2.1, h.2.2⟩

/-! ### Generic lemmas about loops that write `g j` at index `f j` -/

lemma foldl_set_length (f g : ℕ → ℕ) :
    ∀ (l buf : List ℕ),
      (l.foldl (fun b j => b.set (f j) (g j)) buf).length = buf.length := by
  intro l
  induction l with
  | nil => intro buf; rfl
  | cons a l ih =>
    intro buf
    rw [List.foldl_cons, ih, List.length_set]

lemma foldl_set_getElem_of_ne (f g : ℕ → ℕ) :
    ∀ (l buf : List ℕ) (idx : ℕ), (∀ j ∈ l, f j ≠ idx) →
      (l.foldl (fun b j => b.set (f j) (g j)) buf)[idx]? = buf[idx]? := by
  intro l
  induction l with
  | nil => intro buf idx _; rfl
  | cons a l ih =>
    intro buf idx hne
    rw [List.foldl_cons, ih _ idx (fun j hj => hne j (List.mem_cons_of_mem a hj)),
      List.getElem?_set_ne (hne a (List.mem_cons_self a l))]

lemma foldl_set_getElem_of_mem (f g : ℕ → ℕ) :
    ∀ (l buf : List ℕ) (idx j : ℕ), j ∈ l → f j = idx → idx < buf.length →
      (∀ j2 ∈ l, f j2 = idx → j2 = j) →
      (l.foldl (fun b j2 => b.set (f j2) (g j2)) buf)[idx]? = some (g j) := by
  intro l
  induction l with
  | nil => intro buf idx j hj; exact absurd hj (List.not_mem_nil j)
  | cons a l ih =>
    intro buf idx j hj hfj hidx huniq
    rw [List.foldl_cons]
    by_cases hjl : j ∈ l
    · exact ih _ idx j hjl hfj (by rw [List.length_set]; exact hidx)
        (fun j2 h2 h3 => huniq j2 (List.mem_cons_of_mem a h2) h3)
    · have hja : j = a := by
        rcases List.mem_cons.mp hj with h | h
        · exact h
        · exact absurd h hjl
      subst hja
      have hnone : ∀ j2 ∈ l, f j2 ≠ idx := by
        intro j2 h2 heq
        exact hjl ((huniq j2 (List.mem_cons_of_mem _ h2) heq) ▸ h2)
      rw [foldl_set_getElem_of_ne f g l _ idx hnone, hfj]
      exact List.getElem?_set_eq_of_lt _ (hfj ▸ hidx)

/-! ### The render loops -/

/-- Outer loop of `render` after processing the first `k` rows. -/
def renderRows (pixels : List ℕ) (bounds : ℕ × ℕ)
    (upper_left lower_right : Complex) (k : ℕ) : List ℕ :=
  (List.range k).foldl
    (fun buf row =>
      (List.range bounds.1).foldl
        (fun buf2 column =>
          buf2.set (row * bounds.1 + column)
            (pixelByte bounds upper_left lower_right column row))
        buf)
    pixels

lemma render_eq_renderRows (pixels : List ℕ) (bounds : ℕ × ℕ)
    (ul lr : Complex) (h : pixels.length = bounds.1 * bounds.2) :
    render pixels bounds ul lr = some (renderRows pixels bounds ul lr bounds.2) := by
  rw [render, if_pos h, renderRows]

lemma renderRows_length (pixels : List ℕ) (bounds : ℕ × ℕ) (ul lr : Complex) :
    ∀ k, (renderRows pixels bounds ul lr k).length = pixels.length := by
  intro k
  induction k with
  | zero => rfl
  | succ k ih =>
    rw [renderRows, List.range_succ, List.foldl_append, List.foldl_cons, List.foldl_nil]
    rw [show (List.range k).foldl _ pixels = renderRows pixels bounds ul lr k from rfl]
    rw [foldl_set_length (fun column => k * bounds.1 + column)
      (fun column => pixelByte bounds ul lr column k) (List.range bounds.1) _]
    exact ih

lemma renderRows_getElem (pixels : List ℕ) (bounds : ℕ × ℕ) (ul lr : Complex) :
    ∀ (k row column : ℕ), row < k → column < bounds.1 →
      row * bounds.1 + column < pixels.length →
      (renderRows pixels bounds ul lr k)[row * bounds.1 + column]? =
        some (pixelByte bounds ul lr column row) := by
  intro k
  induction k with
  | zero => intro row column h1; omega
  | succ k ih =>
    intro row column h1 h2 h3
    rw [renderRows, List.range_succ, List.foldl_append, List.foldl_cons, List.foldl_nil]
    rw [show (List.range k).foldl _ pixels = renderRows pixels bounds ul lr k from rfl]
    by_cases hrk : row = k
    · subst hrk
      refine foldl_set_getElem_of_mem (fun column => row * bounds.1 + column)
        (fun column => pixelByte bounds ul lr column row) (List.range bounds.1)
        _ _ column (List.mem_range.mpr h2) rfl ?_ ?_
      · rw [renderRows_length]; exact h3
      · intro j2 _ heq
        simp only at heq
        omega
    · have hrow : row < k := by omega
      rw [foldl_set_getElem_of_ne (fun column => k * bounds.1 + column)
        (fun column => pixelByte bounds ul lr column k) (List.range bounds.1) _ _ ?_]
      · exact ih row column hrow h2 h3
      · intro j _
        have hmul : (row + 1) * bounds.1 ≤ k * bounds.1 :=
          Nat.mul_le_mul_right bounds.1 (by omega)
        have : row * bounds.1 + column < k * bounds.1 + j := by
          calc row * bounds.1 + column < row * bounds.1 + bounds.1 :=
                Nat.add_lt_add_left h2 _
            _ = (row + 1) * bounds.1 := (Nat.succ_mul row bounds.1).symm
            _ ≤ k * bounds.1 := hmul
            _ ≤ k * bounds.1 + j := Nat.le_add_right _ _
        exact Nat.ne_of_gt this

/-- Every in-range pixel index is within a buffer of the asserted length. -/
lemma rowmajor_index_lt (width height row column : ℕ)
    (hrow : row < height) (hcol : column < width) :
    row * width + column < width * height := by
  have hmul : (row + 1) * width ≤ height * width :=
    Nat.mul_le_mul_right width (by omega)
  calc row * width + column < row * width + width := Nat.add_lt_add_left hcol _
    _ = (row + 1) * width := (Nat.succ_mul row width).symm
    _ ≤ height * width := hmul
    _ = width * height := Nat.mul_comm height width

/-! ### Claim theorems -/

/-- C1: `escape_time` implements the escape-time algorithm exactly: starting
from `z = 0+0i`, it sets `z = z*z + c` at each iteration and returns `some i`
for the first `i < limit` at which `|z|² > 4` strictly (every earlier
iteration stayed at `≤ 4`, so a state exactly at `4` is not escaped and
iteration continues); it returns `none` exactly when no iteration in
`[0, limit)` strictly exceeds `4`. -/
theorem escape_time_exact (c : Complex) (limit : ℕ) :
    (∀ i, escape_time c limit = some i ↔
      i < limit ∧ 4 < (mandelIter c (i+1)).norm_sqr ∧
        ∀ j, j < i → (mandelIter c (j+1)).norm_sqr ≤ 4) ∧
    (escape_time c limit = none ↔
      ∀ i, i < limit → (mandelIter c (i+1)).norm_sqr ≤ 4) :=
  ⟨fun i => escape_time_some_iff c limit i, escape_time_none_iff c limit⟩

theorem escape_time_exact_witness : escape_time ⟨5, 0⟩ 2 = some 0 :=
  ((escape_time_exact ⟨5, 0⟩ 2).1 0).mpr
    ⟨by omega, by rw [mandelIter_one]; norm_num [Complex.norm_sqr],
      fun j hj => absurd hj (Nat.not_lt_zero j)⟩

/-- C2: when the buffer length equals `width * height`, `render` succeeds and
writes to `pixels[row * width + column]` the byte `0` when `escape_time` of
the mapped point with limit `255` returns `none`, and otherwise `255` minus
the returned iteration count, for every row-major pixel position. -/
theorem render_writes_rowmajor (pixels : List ℕ) (bounds : ℕ × ℕ)
    (ul lr : Complex) (hlen : pixels.length = bounds.1 * bounds.2) :
    ∃ out, render pixels bounds ul lr = some out ∧ out.length = pixels.length ∧
      ∀ row column, row < bounds.2 → column < bounds.1 →
        out[row * bounds.1 + column]? =
          some (match escape_time (pixel_to_point bounds (column, row) ul lr) 255 with
            | none => 0
            | some count => 255 - count) := by
  refine ⟨renderRows pixels bounds ul lr bounds.2, render_eq_renderRows _ _ _ _ hlen,
    renderRows_length _ _ _ _ _, ?_⟩
  intro row column hrow hcol
  have hidx : row * bounds.1 + column < pixels.length := by
    rw [hlen]; exact rowmajor_index_lt bounds.1 bounds.2 row column hrow hcol
  rw [renderRows_getElem pixels bounds ul lr bounds.2 row column hrow hcol hidx]
  simp only [pixelByte]
  cases heq : escape_time (pixel_to_point bounds (column, row) ul lr) 255 with
  | none => rfl
  | some count =>
    have hlt : count < 255 := escape_time_some_lt heq
    simp [Nat.mod_eq_of_lt (show count < 256 by omega)]

theorem render_writes_rowmajor_witness :
    ∃ out, render [0] (1, 1) ⟨0, 0⟩ ⟨0, 0⟩ = some out ∧
      out.length = ([0] : List ℕ).length ∧
      ∀ row column, row < (1, 1).2 → column < (1, 1).1 →
        out[row * (1, 1).1 + column]? =
          some (match escape_time (pixel_to_point (1, 1) (column, row) ⟨0, 0⟩ ⟨0, 0⟩) 255 with
            | none => 0
            | some count => 255 - count) :=
  render_writes_rowmajor [0] (1, 1) ⟨0, 0⟩ ⟨0, 0⟩ rfl

/-- C3: `pixel_to_point` computes exactly the stated interpolation: real part
`ul.re + column * (lr.re - ul.re) / width`, imaginary part
`ul.im - row * (ul.im - lr.im) / height`; and the repository's own test case
`pixel_to_point((100,100), (25,75), (-1,1), (1,-1)) = (-0.5, -0.5)` holds
exactly. -/
theorem pixel_to_point_formula (bounds pixel : ℕ × ℕ) (ul lr : Complex) :
    (pixel_to_point bounds pixel ul lr).re
        = ul.re + (pixel.1 : ℚ) * (lr.re - ul.re) / (bounds.1 : ℚ) ∧
    (pixel_to_point bounds pixel ul lr).im
        = ul.im - (pixel.2 : ℚ) * (ul.im - lr.im) / (bounds.2 : ℚ) ∧
    pixel_to_point (100, 100) (25, 75) ⟨-1, 1⟩ ⟨1, -1⟩ = ⟨-(1/2), -(1/2)⟩ := by
  refine ⟨rfl, rfl, ?_⟩
  simp only [pixel_to_point, Complex.mk.injEq]
  norm_num

/-- C4: `render` fails (the modelled `assert!`) exactly when the buffer length
differs from `bounds.0 * bounds.1`; under the length precondition every index
`row * width + column` visited by the loops is within the buffer. -/
theorem render_assert_iff (pixels : List ℕ) (bounds : ℕ × ℕ) (ul lr : Complex) :
    (render pixels bounds ul lr = none ↔ pixels.length ≠ bounds.1 * bounds.2) ∧
    (pixels.length = bounds.1 * bounds.2 →
      ∀ row column, row < bounds.2 → column < bounds.1 →
        row * bounds.1 + column < pixels.length) := by
  constructor
  · unfold render
    split
    next h => simp [h]
    next h => simp [h]
  · intro hlen row column hrow hcol
    rw [hlen]
    exact rowmajor_index_lt bounds.1 bounds.2 row column hrow hcol

theorem render_assert_iff_witness :
    render ([] : List ℕ) (1, 1) ⟨0, 0⟩ ⟨0, 0⟩ = none :=
  (render_assert_iff [] (1, 1) ⟨0, 0⟩ ⟨0, 0⟩).1.mpr (by decide)

/-- C5: early-exit monotonicity: if `escape_time c limit = some i` with
`limit` positive and `limit ≤ limit2`, then `escape_time c limit2 = some i`;
raising the cap beyond the escape iteration never changes the result. -/
theorem escape_time_limit_mono (c : Complex) (limit limit2 i : ℕ)
    (hpos : 0 < limit) (h : escape_time c limit = some i) (hle : limit ≤ limit2) :
    escape_time c limit2 = some i :=
  escape_time_mono_of_le h hle

theorem escape_time_limit_mono_witness : escape_time ⟨5, 0⟩ 9 = some 0 :=
  escape_time_limit_mono ⟨5, 0⟩ 1 9 0 (by omega)
    (escape_time_of_four_lt ⟨5, 0⟩ 1 (by norm_num [Complex.norm_sqr]) le_rfl)
    (by omega)

/-- C6: for every positive limit, `escape_time` at the origin returns `none`:
the orbit of `0 + 0i` stays at zero, whose squared magnitude never exceeds
`4`. -/
theorem escape_time_origin_none (limit : ℕ) (hpos : 0 < limit) :
    escape_time ⟨0, 0⟩ limit = none :=
  escape_time_origin_eq limit

theorem escape_time_origin_none_witness : escape_time ⟨0, 0⟩ 7 = none :=
  escape_time_origin_none 7 (by omega)

/-- C7: a point with `|c| > 2` (squared magnitude above `4`) escapes at
iteration `0` for every limit `≥ 1`: the first iteration sets `z = c`, whose
squared magnitude already exceeds `4`. -/
theorem escape_time_far_point (c : Complex) (limit : ℕ)
    (hfar : 4 < c.norm_sqr) (hlim : 1 ≤ limit) :
    escape_time c limit = some 0 :=
  escape_time_of_four_lt c limit hfar hlim

theorem escape_time_far_point_witness : escape_time ⟨5, 0⟩ 1 = some 0 :=
  escape_time_far_point ⟨5, 0⟩ 1 (by norm_num [Complex.norm_sqr]) le_rfl

/-- C8: corner identity: pixel `(0, 0)` maps exactly to the upper-left
corner, for every bounds and every pair of corners. -/
theorem pixel_to_point_zero_eq_upper_left (bounds : ℕ × ℕ) (ul lr : Complex) :
    pixel_to_point bounds (0, 0) ul lr = ul := by
  simp [pixel_to_point]

/-- C9: determinism: two `render` calls with identical bounds and corners on
freshly zeroed buffers of the matching length produce identical output; the
result is a pure function of the inputs. -/
theorem render_deterministic (bounds : ℕ × ℕ) (ul lr : Complex) (p1 p2 : List ℕ)
    (h1 : p1 = List.replicate (bounds.1 * bounds.2) 0)
    (h2 : p2 = List.replicate (bounds.1 * bounds.2) 0) :
    render p1 bounds ul lr = render p2 bounds ul lr := by
  rw [h1, h2]

theorem render_deterministic_witness :
    render (List.replicate 1 0) (1, 1) ⟨0, 0⟩ ⟨0, 0⟩ =
      render (List.replicate 1 0) (1, 1) ⟨0, 0⟩ ⟨0, 0⟩ :=
  render_deterministic (1, 1) ⟨0, 0⟩ ⟨0, 0⟩ (List.replicate 1 0)
    (List.replicate 1 0) rfl rfl

/-- C10: byte-encoding invariant: any count returned by `escape_time` with
limit `255` is at most `254`, so the `u8` cast (`% 256`) and the subtraction
`255 - count` never wrap, every escaping pixel gets a byte in `[1, 255]`,
and the written byte is `0` exactly when the point did not escape. -/
theorem render_byte_encoding (bounds : ℕ × ℕ) (ul lr : Complex) (column row : ℕ) :
    (∀ count, escape_time (pixel_to_point bounds (column, row) ul lr) 255 = some count →
      count ≤ 254 ∧ count % 256 = count ∧
      pixelByte bounds ul lr column row = 255 - count ∧
      1 ≤ pixelByte bounds ul lr column row ∧
      pixelByte bounds ul lr column row ≤ 255) ∧
    (pixelByte bounds ul lr column row = 0 ↔
      escape_time (pixel_to_point bounds (column, row) ul lr) 255 = none) := by
  constructor
  · intro count h
    have hlt : count < 255 := escape_time_some_lt h
    have hmod : count % 256 = count := Nat.mod_eq_of_lt (by omega)
    have hbyte : pixelByte bounds ul lr column row = 255 - count := by
      simp only [pixelByte, h, hmod]
    exact ⟨by omega, hmod, hbyte, by rw [hbyte]; omega, by rw [hbyte]; omega⟩
  · cases heq : escape_time (pixel_to_point bounds (column, row) ul lr) 255 with
    | none => simp [pixelByte, heq]
    | some count =>
      have hlt : count < 255 := escape_time_some_lt heq
      have hbyte : pixelByte bounds ul lr column row = 255 - count % 256 := by
        simp only [pixelByte, heq]
      refine iff_of_false ?_ (by simp [heq])
      rw [hbyte, Nat.mod_eq_of_lt (show count < 256 by omega)]
      omega

theorem render_byte_encoding_witness :
    pixelByte (1, 1) ⟨3, 0⟩ ⟨3, 0⟩ 0 0 = 255 := by
  have hpt : pixel_to_point (1, 1) ((0 : ℕ), (0 : ℕ)) ⟨3, 0⟩ ⟨3, 0⟩ = ⟨3, 0⟩ := by
    simp [pixel_to_point]
  have hesc : escape_time (pixel_to_point (1, 1) ((0 : ℕ), (0 : ℕ)) ⟨3, 0⟩ ⟨3, 0⟩) 255
      = some 0 := by
    rw [hpt]
    exact escape_time_of_four_lt ⟨3, 0⟩ 255 (by norm_num [Complex.norm_sqr]) (by omega)
  have h := (render_byte_encoding (1, 1) ⟨3, 0⟩ ⟨3, 0⟩ 0 0).1 0 hesc
  rw [h.2.2.1]

end Mandelbrot
